import Mathlib

/-!
Shallow embedding of the in-memory TTL cache (`CacheService`) of
TF2-Price-DB/pricedb-io-utils, together with proofs of its specified
properties.

Modelling conventions:
* JavaScript `Map` objects become insertion-ordered association lists
  (`List (String × Entry)` for the store, `List String` for the set of keys
  holding a pending expiry timer).  `Map.set` on an existing key keeps the
  key's original position, as in JS.
* Timestamps (`Date.now()`) are `Nat` milliseconds; TTLs and `maxSize` are
  `Int` (callers may pass zero or negative values).
* `null` returned by `get` and stored `null` payloads are both `Value.vnull`,
  mirroring the fact that at the JS interface the two are the same value.
* Asynchronous functions never suspend on the store itself; each operation is
  a pure state transformer evaluated at a single instant `now`.
* The probabilistic sweep after `set` (`Math.random() < 0.1`) and the periodic
  interval timer are modelled by letting a sweep (`_cleanup`) step occur
  nondeterministically between operations; the sweep body itself is the
  deterministic function `CacheService.cleanup` below, identical for every
  invocation site.
-/

/-- JSON-like payload values.  `vnull` plays the role of JavaScript `null`,
which `get` also returns for an absent key. -/
inductive Value where
  | vnull : Value
  | vbool : Bool → Value
  | vnum : Int → Value
  | vstr : String → Value
deriving DecidableEq, Repr

/-- One cache entry, as built by `CacheService.set`:
`{ data, created, lastAccessed, expires }`.  `expires = none` models the JS
`null` ("never expires"); when set it is `now + ttl*1000 > 0`, so the JS
truthiness test `entry.expires && …` coincides with `expires ≠ none`. -/
structure Entry where
  data : Value
  created : Nat
  lastAccessed : Nat
  expires : Option Nat
deriving DecidableEq, Repr

/-- The mutable state of one `CacheService` instance: the store map, the
pending-timer key set, and the mutable configuration fields the claims
mention. -/
structure CacheState where
  cache : List (String × Entry)
  timers : List String
  maxSize : Int
  defaultTTL : Int
deriving DecidableEq, Repr

/-- `Map.prototype.get`. -/
def mapLookup (k : String) : List (String × Entry) → Option Entry
  | [] => none
  | p :: rest => if p.1 = k then some p.2 else mapLookup k rest

/-- `Map.prototype.set`: overwrite in place if the key is present (keeping its
insertion position, as JS maps do), otherwise append. -/
def mapSet (k : String) (e : Entry) : List (String × Entry) → List (String × Entry)
  | [] => [(k, e)]
  | p :: rest => if p.1 = k then (k, e) :: rest else p :: mapSet k e rest

/-- `Map.prototype.delete` on the store. -/
def mapDelete (k : String) (l : List (String × Entry)) : List (String × Entry) :=
  l.filter (fun p => decide (p.1 ≠ k))

/-- Removing a key from the timer map (`clearTimeout` + `timers.delete`);
cancelling an absent handle is a no-op. -/
def timersDelete (k : String) (ts : List String) : List String :=
  ts.filter (fun t => decide (t ≠ k))

/-- The expiry test used by every read/sweep path:
`entry.expires && now > entry.expires`. -/
def isExpired (now : Nat) (e : Entry) : Bool :=
  match e.expires with
  | some ex => decide (now > ex)
  | none => false

/-- Stable insert-after-equals: the new element goes after every element `y`
of the accumulator with `le y x`.  Used to model JavaScript's stable
comparator sort. -/
def insAfterLe {α : Type} (le : α → α → Bool) (x : α) : List α → List α
  | [] => [x]
  | y :: rest => if le y x then y :: insAfterLe le x rest else x :: y :: rest

/-- Stable sort by repeated insertion, processing the list left to right, so
elements comparing equal keep their original relative order — the behaviour
guaranteed for `Array.prototype.sort`. -/
def sortStable {α : Type} (le : α → α → Bool) (l : List α) : List α :=
  l.foldl (fun acc x => insAfterLe le x acc) []

/-- Comparator of the size-based eviction pass:
`(a, b) => a[1].created - b[1].created`, ascending by creation time. -/
def createdLe (p q : String × Entry) : Bool :=
  decide (p.2.created ≤ q.2.created)

namespace CacheService

/-- Constructor options; an absent field means the caller did not override the
default (`this._config = { defaults, ...options }`). -/
structure Options where
  defaultTTL : Option Int := none
  maxSize : Option Int := none
deriving Repr

/-- Models `new CacheService(options)`.  The constructor merges the options
over the defaults (`defaultTTL: 300`, `maxSize: 1000`) and performs **no
validation** of any field. -/
def make (opts : Options) : CacheState :=
  { cache := []
    timers := []
    maxSize := opts.maxSize.getD 1000
    defaultTTL := opts.defaultTTL.getD 300 }

/-- First half of `CacheService._cleanup`, the time-based pass: remove every
expired entry together with its timer handle. -/
def expiryPass (now : Nat) (s : CacheState) : CacheState :=
  let expiredKeys := (s.cache.filter (fun p => isExpired now p.2)).map Prod.fst
  { s with
    cache := s.cache.filter (fun p => !isExpired now p.2)
    timers := s.timers.filter (fun t => !(expiredKeys.contains t)) }

/-- Second half of `CacheService._cleanup`, the size-based pass: if the entry
count exceeds `maxSize`, sort the entries ascending by `created` and remove
the oldest `count − maxSize` of them (`slice(0, n)` = `take n`) together with
their timer handles. -/
def sizePass (s : CacheState) : CacheState :=
  if (s.cache.length : Int) > s.maxSize then
    let toRemove :=
      ((sortStable createdLe s.cache).take ((s.cache.length : Int) - s.maxSize).toNat).map Prod.fst
    { s with
      cache := s.cache.filter (fun p => !(toRemove.contains p.1))
      timers := s.timers.filter (fun t => !(toRemove.contains t)) }
  else s

/-- `CacheService._cleanup`: the sweep — the time-based pass followed by the
size-based pass, exactly as the two consecutive blocks of the source. -/
def cleanup (now : Nat) (s : CacheState) : CacheState :=
  sizePass (expiryPass now s)

/-- `CacheService.get(key)` at instant `now`: absent key or expired entry
yields `vnull` (lazily deleting an expired entry and its timer); otherwise
`lastAccessed` is refreshed and the data returned. -/
def get (k : String) (now : Nat) (s : CacheState) : Value × CacheState :=
  match mapLookup k s.cache with
  | none => (Value.vnull, s)
  | some entry =>
    if isExpired now entry then
      (Value.vnull,
        { s with cache := mapDelete k s.cache, timers := timersDelete k s.timers })
    else
      (entry.data,
        { s with cache := mapSet k { entry with lastAccessed := now } s.cache })

/-- `CacheService.set(key, data, ttl)` at instant `now`: cancel any pending
timer for the key, store a fresh entry with
`expires = ttl > 0 ? now + ttl*1000 : null`, and schedule a new expiry timer
exactly when `expires` is set.  (The 10 %-probability sweep is modelled as a
separate nondeterministic `cleanup` step.) -/
def set (k : String) (data : Value) (ttl : Int) (now : Nat) (s : CacheState) : CacheState :=
  let expires : Option Nat := if ttl > 0 then some (now + ttl.toNat * 1000) else none
  let timers1 := timersDelete k s.timers
  { s with
    cache := mapSet k { data := data, created := now, lastAccessed := now, expires := expires } s.cache
    timers := match expires with
      | some _ => timers1 ++ [k]
      | none => timers1 }

/-- `CacheService.del(key)`: remove entry and timer unconditionally, returning
whether the key existed before removal. -/
def del (k : String) (s : CacheState) : Bool × CacheState :=
  ((mapLookup k s.cache).isSome,
    { s with cache := mapDelete k s.cache, timers := timersDelete k s.timers })

/-- `CacheService.has(key)`: defined as `get(key) !== null`. -/
def has (k : String) (now : Nat) (s : CacheState) : Bool × CacheState :=
  let r := get k now s
  (decide (r.1 ≠ Value.vnull), r.2)

/-- `CacheService.keys()`: all keys whose entry is not time-expired
(`!entry.expires || now <= entry.expires`); does not mutate. -/
def keys (now : Nat) (s : CacheState) : List String :=
  (s.cache.filter (fun p =>
    match p.2.expires with
    | none => true
    | some ex => decide (now ≤ ex))).map Prod.fst

/-- `CacheService.clear()`: cancel every timer and empty the store. -/
def clear (s : CacheState) : CacheState :=
  { s with cache := [], timers := [] }

/-- The body of the per-key expiry timer scheduled by `set`:
`cache.delete(key); timers.delete(key)`. -/
def timerFire (k : String) (s : CacheState) : CacheState :=
  { s with cache := mapDelete k s.cache, timers := timersDelete k s.timers }

/-- `CacheService.setMaxSize(size)`: store the new bound unvalidated, then
immediately sweep to enforce it. -/
def setMaxSize (size : Int) (now : Nat) (s : CacheState) : CacheState :=
  cleanup now { s with maxSize := size }

/-- `CacheService.getOrSet(key, queryFn, ttl)`.  The producer is modelled as
the already-settled outcome of `queryFn()`: `.ok` a value or `.error` a
message.  On a cache hit the cached value is returned; on a miss a
successful producer result is stored via `set` and returned, and a failure
is logged and rethrown with nothing cached. -/
def getOrSet (k : String) (producer : Except String Value) (ttl : Int) (now : Nat)
    (s : CacheState) : Except String Value × CacheState :=
  let r := get k now s
  if r.1 ≠ Value.vnull then
    (Except.ok r.1, r.2)
  else
    match producer with
    | Except.ok data => (Except.ok data, set k data ttl now r.2)
    | Except.error err => (Except.error err, r.2)

/-- Minimal JSON string escaping as performed by `JSON.stringify` on the
characters that require it in ordinary keys/values. -/
def jsonEscapeChar (c : Char) : String :=
  if c = '"' then "\\\"" else if c = '\\' then "\\\\" else String.singleton c

def jsonEscape (s : String) : String :=
  String.join (s.data.map jsonEscapeChar)

def jsonString (s : String) : String :=
  "\"" ++ jsonEscape s ++ "\""

/-- `JSON.stringify` of a primitive payload value. -/
def stringifyValue : Value → String
  | Value.vnull => "null"
  | Value.vbool b => if b then "true" else "false"
  | Value.vnum n => toString n
  | Value.vstr s => jsonString s

/-- `JSON.stringify` of an object whose properties are listed in insertion
order. -/
def stringifyParams (ps : List (String × Value)) : String :=
  "\x7b" ++ String.intercalate "," (ps.map (fun p => jsonString p.1 ++ ":" ++ stringifyValue p.2)) ++ "\x7d"

/-- Key comparator of `generateKey`: `a.localeCompare(b)`, modelled as ordinal
(code-point) comparison of the underlying character lists. -/
def paramLe (p q : String × Value) : Bool :=
  decide (p.1.data ≤ q.1.data)

/-- `CacheService.generateKey(endpoint, params)`: sort the parameter bindings
by key name, serialize them as a JSON object, and prefix with
`api:endpoint`; empty params contribute no suffix. -/
def generateKey (endpoint : String) (params : List (String × Value)) : String :=
  let sortedParams := sortStable paramLe params
  let paramString := if sortedParams.length > 0 then ":" ++ stringifyParams sortedParams else ""
  "api:" ++ endpoint ++ paramString

end CacheService

/-- The operations that mutate a cache instance, including the two
timer-driven ones (a sweep tick and a per-key expiry timer firing). -/
inductive Op where
  | opSet : String → Value → Int → Nat → Op
  | opGet : String → Nat → Op
  | opDel : String → Op
  | opClear : Op
  | opSweep : Nat → Op
  | opTimerFire : String → Op

/-- State transformer of one operation (discarding the returned value). -/
def applyOp : Op → CacheState → CacheState
  | Op.opSet k v ttl now, s => CacheService.set k v ttl now s
  | Op.opGet k now, s => (CacheService.get k now s).2
  | Op.opDel k, s => (CacheService.del k s).2
  | Op.opClear, s => CacheService.clear s
  | Op.opSweep now, s => CacheService.cleanup now s
  | Op.opTimerFire k, s => CacheService.timerFire k s

/-- Background steps that may run between a `set` and a later `get`: a sweep
at some instant, or some key's expiry timer firing. -/
inductive Step where
  | sweep : Nat → Step
  | fire : String → Step

def runStep : Step → CacheState → CacheState
  | Step.sweep now, s => CacheService.cleanup now s
  | Step.fire k, s => CacheService.timerFire k s

def runSteps (l : List Step) (s : CacheState) : CacheState :=
  l.foldl (fun s st => runStep st s) s

/-- Invariant I1: every key holding a pending expiry timer also has a live
entry in the store. -/
def TimerInv (s : CacheState) : Prop :=
  ∀ k ∈ s.timers, (mapLookup k s.cache).isSome

/-- Side conditions on a background step between `set(k, ...)` and a later
read at `nf`: a sweep runs at some instant no later than the read, and the
expiry timer of `k` itself has not fired. -/
def stepOk (k : String) (nf : Nat) : Step → Bool
  | Step.sweep n => decide (n ≤ nf)
  | Step.fire k2 => decide (k2 ≠ k)

/-! ### Basic lemmas about the stable sort -/

theorem insAfterLe_perm {α : Type} (le : α → α → Bool) (x : α) (l : List α) :
    (insAfterLe le x l).Perm (x :: l) := by
  induction l with
  | nil => simp [insAfterLe]
  | cons y rest ih =>
    by_cases h : le y x = true
    · simp only [insAfterLe, h, if_true]
      exact (ih.cons y).trans (List.Perm.swap x y rest)
    · have hrw : insAfterLe le x (y :: rest) = x :: y :: rest := by
        simp [insAfterLe, h]
      rw [hrw]

theorem mem_insAfterLe {α : Type} {le : α → α → Bool} {x a : α} {l : List α} :
    a ∈ insAfterLe le x l ↔ a = x ∨ a ∈ l := by
  rw [(insAfterLe_perm le x l).mem_iff, List.mem_cons]

theorem foldl_insAfterLe_perm {α : Type} (le : α → α → Bool) :
    ∀ (l acc : List α),
      (l.foldl (fun acc x => insAfterLe le x acc) acc).Perm (acc ++ l) := by
  intro l
  induction l with
  | nil => intro acc; simp
  | cons x rest ih =>
    intro acc
    have h1 := ih (insAfterLe le x acc)
    have h2 : (insAfterLe le x acc ++ rest).Perm ((x :: acc) ++ rest) :=
      (insAfterLe_perm le x acc).append_right rest
    have h3 : ((x :: acc) ++ rest).Perm (acc ++ x :: rest) := by
      simpa using (@List.perm_middle _ x acc rest).symm
    exact ((h1.trans h2).trans h3)

theorem sortStable_perm {α : Type} (le : α → α → Bool) (l : List α) :
    (sortStable le l).Perm l := by
  simpa [sortStable] using foldl_insAfterLe_perm le l []

theorem pairwise_insAfterLe {α : Type} {le : α → α → Bool}
    (htrans : ∀ a b c, le a b = true → le b c = true → le a c = true)
    (htotal : ∀ a b, le a b = true ∨ le b a = true)
    (x : α) {l : List α} (hl : l.Pairwise (fun a b => le a b = true)) :
    (insAfterLe le x l).Pairwise (fun a b => le a b = true) := by
  induction l with
  | nil => simp [insAfterLe]
  | cons y rest ih =>
    rcases List.pairwise_cons.mp hl with ⟨hy, hrest⟩
    by_cases h : le y x = true
    · simp only [insAfterLe, h, if_true]
      refine List.pairwise_cons.mpr ⟨?_, ih hrest⟩
      intro a ha
      rcases mem_insAfterLe.mp ha with rfl | ha
      · exact h
      · exact hy a ha
    · simp only [insAfterLe, h, if_false]
      have hxy : le x y = true := (htotal x y).resolve_right h
      refine List.pairwise_cons.mpr ⟨?_, hl⟩
      intro a ha
      rcases List.mem_cons.mp ha with rfl | ha
      · exact hxy
      · exact htrans x y a hxy (hy a ha)

theorem pairwise_sortStable {α : Type} {le : α → α → Bool}
    (htrans : ∀ a b c, le a b = true → le b c = true → le a c = true)
    (htotal : ∀ a b, le a b = true ∨ le b a = true)
    (l : List α) :
    (sortStable le l).Pairwise (fun a b => le a b = true) := by
  suffices h : ∀ (l acc : List α), acc.Pairwise (fun a b => le a b = true) →
      (l.foldl (fun acc x => insAfterLe le x acc) acc).Pairwise (fun a b => le a b = true) by
    exact h l [] List.Pairwise.nil
  intro l
  induction l with
  | nil => intro acc hacc; simpa using hacc
  | cons x rest ih =>
    intro acc hacc
    exact ih (insAfterLe le x acc) (pairwise_insAfterLe htrans htotal x hacc)

theorem insAfterLe_append {α : Type} {le : α → α → Bool} {x : α} {l : List α}
    (h : ∀ y ∈ l, le y x = true) : insAfterLe le x l = l ++ [x] := by
  induction l with
  | nil => simp [insAfterLe]
  | cons y rest ih =>
    have hy : le y x = true := h y (List.mem_cons_self y rest)
    simp only [insAfterLe, hy, if_true, List.cons_append, List.cons.injEq, true_and]
    exact ih (fun z hz => h z (List.mem_cons_of_mem y hz))

theorem sortStable_eq_self {α : Type} {le : α → α → Bool} {l : List α}
    (h : l.Pairwise (fun a b => le a b = true)) : sortStable le l = l := by
  suffices hgen : ∀ (l acc : List α), l.Pairwise (fun a b => le a b = true) →
      (∀ a ∈ acc, ∀ b ∈ l, le a b = true) →
      l.foldl (fun acc x => insAfterLe le x acc) acc = acc ++ l by
    simpa using hgen l [] h (by simp)
  intro l
  induction l with
  | nil => intro acc _ _; simp
  | cons x rest ih =>
    intro acc hl hcross
    rcases List.pairwise_cons.mp hl with ⟨hx, hrest⟩
    have hins : insAfterLe le x acc = acc ++ [x] :=
      insAfterLe_append (fun y hy => hcross y hy x (List.mem_cons_self x rest))
    have hcross' : ∀ a ∈ acc ++ [x], ∀ b ∈ rest, le a b = true := by
      intro a ha b hb
      rcases List.mem_append.mp ha with ha | ha
      · exact hcross a ha b (List.mem_cons_of_mem x hb)
      · rcases List.mem_singleton.mp ha with rfl
        exact hx b hb
    calc (x :: rest).foldl (fun acc x => insAfterLe le x acc) acc
        = rest.foldl (fun acc x => insAfterLe le x acc) (acc ++ [x]) := by
          simp [List.foldl_cons, hins]
      _ = (acc ++ [x]) ++ rest := ih (acc ++ [x]) hrest hcross'
      _ = acc ++ x :: rest := by simp

/-! ### Basic lemmas about the association-list map operations -/

theorem mapLookup_mapSet_self (k : String) (e : Entry) (l : List (String × Entry)) :
    mapLookup k (mapSet k e l) = some e := by
  induction l with
  | nil => simp [mapSet, mapLookup]
  | cons p rest ih =>
    rcases p with ⟨k0, e0⟩
    by_cases h : k0 = k
    · simp [mapSet, mapLookup, h]
    · simp [mapSet, mapLookup, h, ih]

theorem mapLookup_mapSet_ne {k k' : String} (hne : k' ≠ k) (e : Entry)
    (l : List (String × Entry)) : mapLookup k' (mapSet k e l) = mapLookup k' l := by
  have hne' : ¬(k = k') := fun h => hne h.symm
  induction l with
  | nil => simp [mapSet, mapLookup, hne']
  | cons p rest ih =>
    rcases p with ⟨k0, e0⟩
    by_cases h : k0 = k
    · subst h
      simp [mapSet, mapLookup, hne']
    · by_cases h' : k0 = k'
      · subst h'
        simp [mapSet, mapLookup, h]
      · simp [mapSet, mapLookup, h, h', ih]

theorem mapLookup_mapDelete_self (k : String) (l : List (String × Entry)) :
    mapLookup k (mapDelete k l) = none := by
  induction l with
  | nil => simp [mapDelete, mapLookup]
  | cons p rest ih =>
    rcases p with ⟨k0, e0⟩
    by_cases h : k0 = k
    · simpa [mapDelete, List.filter_cons, h] using ih
    · simpa [mapDelete, List.filter_cons, mapLookup, h] using ih

theorem mapLookup_mapDelete_ne {k k' : String} (hne : k' ≠ k) (l : List (String × Entry)) :
    mapLookup k' (mapDelete k l) = mapLookup k' l := by
  have hne' : ¬(k = k') := fun h => hne h.symm
  induction l with
  | nil => simp [mapDelete, mapLookup]
  | cons p rest ih =>
    rcases p with ⟨k0, e0⟩
    by_cases h : k0 = k
    · subst h
      simpa [mapDelete, List.filter_cons, mapLookup, hne'] using ih
    · by_cases h' : k0 = k'
      · subst h'
        simp [mapDelete, List.filter_cons, mapLookup, h]
      · simpa [mapDelete, List.filter_cons, mapLookup, h, h'] using ih

theorem mem_of_mapLookup {k : String} {e : Entry} {l : List (String × Entry)}
    (h : mapLookup k l = some e) : (k, e) ∈ l := by
  induction l with
  | nil => simp [mapLookup] at h
  | cons p rest ih =>
    rcases p with ⟨k0, e0⟩
    by_cases hp : k0 = k
    · subst hp
      simp only [mapLookup, if_true, Option.some.injEq] at h
      subst h
      exact List.mem_cons_self _ _
    · simp only [mapLookup, hp, if_false] at h
      exact List.mem_cons_of_mem _ (ih h)

theorem mapLookup_filter {k : String} {e : Entry} {P : String × Entry → Bool}
    {l : List (String × Entry)} (h : mapLookup k l = some e) (hP : P (k, e) = true) :
    mapLookup k (l.filter P) = some e := by
  induction l with
  | nil => simp [mapLookup] at h
  | cons p rest ih =>
    rcases p with ⟨k0, e0⟩
    by_cases hp : k0 = k
    · subst hp
      simp only [mapLookup, if_true, Option.some.injEq] at h
      subst h
      simp [List.filter_cons, hP, mapLookup]
    · simp only [mapLookup, hp, if_false] at h
      by_cases hPp : P (k0, e0) = true
      · simp [List.filter_cons, hPp, mapLookup, hp, ih h]
      · simp [List.filter_cons, hPp, ih h]

theorem mapLookup_of_mapLookup_filter {k : String} {e : Entry}
    {P : String × Entry → Bool} {l : List (String × Entry)}
    (hnd : (l.map Prod.fst).Nodup) (h : mapLookup k (l.filter P) = some e) :
    mapLookup k l = some e := by
  induction l with
  | nil => simp [mapLookup] at h
  | cons p rest ih =>
    rcases p with ⟨k0, e0⟩
    simp only [List.map_cons] at hnd
    rcases List.nodup_cons.mp hnd with ⟨hp1, hnd'⟩
    by_cases hPp : P (k0, e0) = true
    · simp only [List.filter_cons, hPp, if_true] at h
      by_cases hp : k0 = k
      · simp only [mapLookup, hp, if_true] at h ⊢
        exact h
      · simp only [mapLookup, hp, if_false] at h ⊢
        exact ih hnd' h
    · simp only [List.filter_cons, hPp, if_false] at h
      by_cases hp : k0 = k
      · exfalso
        subst hp
        have hk : (k0, e) ∈ rest := mem_of_mapLookup (ih hnd' h)
        exact hp1 (List.mem_map_of_mem Prod.fst hk)
      · simp only [mapLookup, hp, if_false]
        exact ih hnd' h

/-! ### Key-set and length lemmas -/

theorem mem_keys_mapSet {a k : String} {e : Entry} {l : List (String × Entry)}
    (h : a ∈ (mapSet k e l).map Prod.fst) : a = k ∨ a ∈ l.map Prod.fst := by
  induction l with
  | nil => simpa [mapSet] using h
  | cons p rest ih =>
    rcases p with ⟨k0, e0⟩
    by_cases hp : k0 = k
    · subst hp
      simpa [mapSet] using h
    · simp only [mapSet, hp, if_false, List.map_cons, List.mem_cons] at h
      rcases h with rfl | h
      · simp
      · rcases ih h with h | h
        · exact Or.inl h
        · exact Or.inr (by simp [h])

theorem nodup_keys_mapSet {k : String} {e : Entry} {l : List (String × Entry)}
    (h : (l.map Prod.fst).Nodup) : ((mapSet k e l).map Prod.fst).Nodup := by
  induction l with
  | nil => simp [mapSet]
  | cons p rest ih =>
    rcases p with ⟨k0, e0⟩
    simp only [List.map_cons] at h
    rcases List.nodup_cons.mp h with ⟨h1, h2⟩
    by_cases hp : k0 = k
    · subst hp
      simpa [mapSet] using List.nodup_cons.mpr ⟨h1, h2⟩
    · simp only [mapSet, hp, if_false, List.map_cons]
      refine List.nodup_cons.mpr ⟨?_, ih h2⟩
      intro hmem
      rcases mem_keys_mapSet hmem with rfl | hmem
      · exact hp rfl
      · exact h1 hmem

theorem length_mapSet_le (k : String) (e : Entry) (l : List (String × Entry)) :
    (mapSet k e l).length ≤ l.length + 1 := by
  induction l with
  | nil => simp [mapSet]
  | cons p rest ih =>
    by_cases hp : p.1 = k
    · simp [mapSet, hp]
    · simpa [mapSet, hp] using Nat.succ_le_succ ih

theorem nodup_keys_filter {P : String × Entry → Bool} {l : List (String × Entry)}
    (h : (l.map Prod.fst).Nodup) : ((l.filter P).map Prod.fst).Nodup :=
  ((List.filter_sublist l).map Prod.fst).nodup h

/-! ### The size-based pass bounds the store size -/

theorem length_filter_not_mem_take_le (l : List (String × Entry)) (n : Nat) :
    (l.filter (fun p =>
      !((((sortStable createdLe l).take n).map Prod.fst).contains p.1))).length
      ≤ l.length - n := by
  set srt := sortStable createdLe l with hsrt
  set P : String × Entry → Bool :=
    fun p => !(((srt.take n).map Prod.fst).contains p.1) with hP
  have hperm : srt.Perm l := sortStable_perm createdLe l
  have hlen : (l.filter P).length = (srt.filter P).length :=
    ((hperm.filter P).length_eq).symm
  have hsplit : srt.filter P = (srt.take n).filter P ++ (srt.drop n).filter P := by
    conv_lhs => rw [← List.take_append_drop n srt]
    exact List.filter_append _ _
  have htake : (srt.take n).filter P = [] := by
    rw [List.filter_eq_nil_iff]
    intro p hp
    have hmem : p.1 ∈ (srt.take n).map Prod.fst := List.mem_map_of_mem Prod.fst hp
    simp only [List.map_take] at hmem
    simp [hP, List.elem_iff, hmem]
  have hdrop : ((srt.drop n).filter P).length ≤ srt.length - n := by
    calc ((srt.drop n).filter P).length ≤ (srt.drop n).length := List.length_filter_le _ _
      _ = srt.length - n := List.length_drop n srt
  calc (l.filter P).length = (srt.filter P).length := hlen
    _ = ((srt.take n).filter P).length + ((srt.drop n).filter P).length := by
        rw [hsplit, List.length_append]
    _ = ((srt.drop n).filter P).length := by rw [htake]; simp
    _ ≤ srt.length - n := hdrop
    _ = l.length - n := by rw [hperm.length_eq]

theorem length_sizePass_le (s : CacheState) (hnn : 0 ≤ s.maxSize) :
    ((CacheService.sizePass s).cache.length : Int) ≤ s.maxSize := by
  by_cases hgt : (s.cache.length : Int) > s.maxSize
  · have hres : (CacheService.sizePass s).cache
        = s.cache.filter (fun p =>
            !((((sortStable createdLe s.cache).take
                ((s.cache.length : Int) - s.maxSize).toNat).map Prod.fst).contains p.1)) := by
      simp [CacheService.sizePass, hgt]
    rw [hres]
    have hb := length_filter_not_mem_take_le s.cache ((s.cache.length : Int) - s.maxSize).toNat
    have hle : (s.cache.filter (fun p =>
        !((((sortStable createdLe s.cache).take
            ((s.cache.length : Int) - s.maxSize).toNat).map Prod.fst).contains p.1))).length
        ≤ s.cache.length - ((s.cache.length : Int) - s.maxSize).toNat := hb
    have : ((s.cache.filter (fun p =>
        !((((sortStable createdLe s.cache).take
            ((s.cache.length : Int) - s.maxSize).toNat).map Prod.fst).contains p.1))).length : Int)
        ≤ s.maxSize := by
      have h1 : ((s.cache.length : Int) - s.maxSize).toNat = s.cache.length - s.maxSize.toNat := by
        omega
      omega
    exact this
  · simp only [CacheService.sizePass, hgt, if_false]
    exact le_of_not_lt hgt

theorem expiryPass_maxSize (now : Nat) (s : CacheState) :
    (CacheService.expiryPass now s).maxSize = s.maxSize := rfl

theorem sizePass_maxSize (s : CacheState) :
    (CacheService.sizePass s).maxSize = s.maxSize := by
  by_cases hgt : (s.cache.length : Int) > s.maxSize
  · simp [CacheService.sizePass, hgt]
  · simp [CacheService.sizePass, hgt]

/-- **C2** (spec P3/I3): for every cache state and every positive `maxSize`,
immediately after the sweep (`_cleanup`) completes — whichever of its call
sites invoked it (the periodic interval timer, the probabilistic call in
`set`, or `setMaxSize`), since they all run the same `cleanup` function — the
number of entries in the store is at most `maxSize`. -/
theorem claim_C2_size_bound_after_sweep (s : CacheState) (now : Nat)
    (hpos : 0 < s.maxSize) :
    ((CacheService.cleanup now s).cache.length : Int) ≤ s.maxSize := by
  have hmax : (CacheService.expiryPass now s).maxSize = s.maxSize :=
    expiryPass_maxSize now s
  have h := length_sizePass_le (CacheService.expiryPass now s)
    (by rw [hmax]; exact le_of_lt hpos)
  rw [hmax] at h
  exact h

/-- Witness for C2 at a concrete over-full state. -/
theorem claim_C2_size_bound_after_sweep_witness :
    (0 : Int) < (1 : Int) ∧
    (((CacheService.cleanup 5
        { cache := [("a", ⟨Value.vnum 1, 0, 0, none⟩), ("b", ⟨Value.vnum 2, 1, 1, none⟩)]
          timers := []
          maxSize := 1
          defaultTTL := 300 }).cache.length : Int) ≤ 1) :=
  ⟨by decide,
    claim_C2_size_bound_after_sweep
      { cache := [("a", ⟨Value.vnum 1, 0, 0, none⟩), ("b", ⟨Value.vnum 2, 1, 1, none⟩)]
        timers := []
        maxSize := 1
        defaultTTL := 300 } 5 (by decide)⟩

theorem sizePass_eq_of_le (s : CacheState) (h : (s.cache.length : Int) ≤ s.maxSize) :
    CacheService.sizePass s = s := by
  simp [CacheService.sizePass, not_lt.mpr h]

/-- **C5** (spec P5): for a key present in the cache, `del(k)` returns `true`,
removes the entry and its pending timer unconditionally, and a second
`del(k)` returns `false`; neither call can fail (both are total functions of
the model). -/
theorem claim_C5_del_idempotent (s : CacheState) (k : String)
    (h : (mapLookup k s.cache).isSome) :
    (CacheService.del k s).1 = true ∧
    mapLookup k (CacheService.del k s).2.cache = none ∧
    k ∉ (CacheService.del k s).2.timers ∧
    (CacheService.del k (CacheService.del k s).2).1 = false := by
  refine ⟨h, ?_, ?_, ?_⟩
  · exact mapLookup_mapDelete_self k s.cache
  · simp [CacheService.del, timersDelete, List.mem_filter]
  · simp [CacheService.del, mapLookup_mapDelete_self]

/-- Witness for C5: deleting the sole key of a one-entry cache. -/
theorem claim_C5_del_idempotent_witness :
    (mapLookup "k"
        [("k", ⟨Value.vnum 7, 0, 0, none⟩)]).isSome = true ∧
    ((CacheService.del "k"
        { cache := [("k", ⟨Value.vnum 7, 0, 0, none⟩)], timers := ["k"],
          maxSize := 1000, defaultTTL := 300 }).1 = true ∧
      mapLookup "k" (CacheService.del "k"
        { cache := [("k", ⟨Value.vnum 7, 0, 0, none⟩)], timers := ["k"],
          maxSize := 1000, defaultTTL := 300 }).2.cache = none ∧
      "k" ∉ (CacheService.del "k"
        { cache := [("k", ⟨Value.vnum 7, 0, 0, none⟩)], timers := ["k"],
          maxSize := 1000, defaultTTL := 300 }).2.timers ∧
      (CacheService.del "k" (CacheService.del "k"
        { cache := [("k", ⟨Value.vnum 7, 0, 0, none⟩)], timers := ["k"],
          maxSize := 1000, defaultTTL := 300 }).2).1 = false) :=
  ⟨by decide,
    claim_C5_del_idempotent
      { cache := [("k", ⟨Value.vnum 7, 0, 0, none⟩)], timers := ["k"],
        maxSize := 1000, defaultTTL := 300 } "k" (by decide)⟩

/-- **C4** (spec E2E scenario C): on a cache where `k` is absent, `getOrSet`
with a failing producer rethrows the producer's error unchanged (after
logging it) and leaves the store unchanged, so a subsequent `get(k)` still
returns absent. -/
theorem claim_C4_getOrSet_failure (s : CacheState) (k : String) (ttl : Int) (now : Nat)
    (err : String) (habsent : mapLookup k s.cache = none) :
    CacheService.getOrSet k (Except.error err) ttl now s = (Except.error err, s) ∧
    ∀ nf, CacheService.get k nf s = (Value.vnull, s) := by
  have hget : ∀ nf, CacheService.get k nf s = (Value.vnull, s) := by
    intro nf
    simp [CacheService.get, habsent]
  refine ⟨?_, hget⟩
  simp [CacheService.getOrSet, hget now]

/-- Witness for C4: a failing producer on an empty cache. -/
theorem claim_C4_getOrSet_failure_witness :
    mapLookup "y" (CacheService.make {}).cache = none ∧
    (CacheService.getOrSet "y" (Except.error "boom") 300 0 (CacheService.make {})
        = (Except.error "boom", CacheService.make {}) ∧
      ∀ nf, CacheService.get "y" nf (CacheService.make {})
        = (Value.vnull, CacheService.make {})) :=
  ⟨by decide, claim_C4_getOrSet_failure (CacheService.make {}) "y" 300 0 "boom" (by decide)⟩

/-- **C8** (spec P2): `set(k, v, t)` with `t ≤ 0` stores the entry with no
expiry timestamp and no pending timer, so `get(k)` returns `v` at every
later time, and a sweep on a within-bounds cache leaves the entry in place;
all store operations of the model are total functions and cannot fail. -/
theorem claim_C8_no_expiry (s : CacheState) (k : String) (v : Value) (ttl : Int) (now : Nat)
    (httl : ttl ≤ 0) :
    mapLookup k (CacheService.set k v ttl now s).cache
      = some { data := v, created := now, lastAccessed := now, expires := none } ∧
    k ∉ (CacheService.set k v ttl now s).timers ∧
    (∀ nf, (CacheService.get k nf (CacheService.set k v ttl now s)).1 = v) ∧
    (∀ ns, ((CacheService.set k v ttl now s).cache.length : Int)
        ≤ (CacheService.set k v ttl now s).maxSize →
      mapLookup k (CacheService.cleanup ns (CacheService.set k v ttl now s)).cache
        = some { data := v, created := now, lastAccessed := now, expires := none }) := by
  have hnotpos : ¬ttl > 0 := not_lt.mpr httl
  have hcache : (CacheService.set k v ttl now s).cache
      = mapSet k { data := v, created := now, lastAccessed := now, expires := none } s.cache := by
    simp [CacheService.set, hnotpos]
  have hlook : mapLookup k (CacheService.set k v ttl now s).cache
      = some { data := v, created := now, lastAccessed := now, expires := none } := by
    rw [hcache]
    exact mapLookup_mapSet_self _ _ _
  refine ⟨hlook, ?_, ?_, ?_⟩
  · simp [CacheService.set, hnotpos, timersDelete, List.mem_filter]
  · intro nf
    simp [CacheService.get, hlook, isExpired]
  · intro ns hsz
    have hexp : mapLookup k (CacheService.expiryPass ns (CacheService.set k v ttl now s)).cache
        = some { data := v, created := now, lastAccessed := now, expires := none } := by
      exact mapLookup_filter hlook (by simp [isExpired])
    have hszexp : ((CacheService.expiryPass ns (CacheService.set k v ttl now s)).cache.length : Int)
        ≤ (CacheService.expiryPass ns (CacheService.set k v ttl now s)).maxSize := by
      calc ((CacheService.expiryPass ns (CacheService.set k v ttl now s)).cache.length : Int)
          ≤ ((CacheService.set k v ttl now s).cache.length : Int) := by
            exact_mod_cast List.length_filter_le _ _
        _ ≤ (CacheService.set k v ttl now s).maxSize := hsz
        _ = (CacheService.expiryPass ns (CacheService.set k v ttl now s)).maxSize := rfl
    rw [CacheService.cleanup, sizePass_eq_of_le _ hszexp]
    exact hexp

/-- Witness for C8: `set("k", 42, 0)` on an empty cache. -/
theorem claim_C8_no_expiry_witness :
    ((0 : Int) ≤ 0) ∧
    (mapLookup "k" (CacheService.set "k" (Value.vnum 42) 0 0 (CacheService.make {})).cache
        = some { data := Value.vnum 42, created := 0, lastAccessed := 0, expires := none } ∧
      "k" ∉ (CacheService.set "k" (Value.vnum 42) 0 0 (CacheService.make {})).timers ∧
      (∀ nf, (CacheService.get "k" nf
        (CacheService.set "k" (Value.vnum 42) 0 0 (CacheService.make {}))).1 = Value.vnum 42) ∧
      (∀ ns, ((CacheService.set "k" (Value.vnum 42) 0 0 (CacheService.make {})).cache.length : Int)
          ≤ (CacheService.set "k" (Value.vnum 42) 0 0 (CacheService.make {})).maxSize →
        mapLookup "k" (CacheService.cleanup ns
            (CacheService.set "k" (Value.vnum 42) 0 0 (CacheService.make {}))).cache
          = some { data := Value.vnum 42, created := 0, lastAccessed := 0, expires := none })) :=
  ⟨by decide, claim_C8_no_expiry (CacheService.make {}) "k" (Value.vnum 42) 0 0 (by decide)⟩

/-- **C10**: at the public interface a stored `null` is indistinguishable from
absence: after `set(k, null, t)`, while the entry is physically present and
unexpired, `get(k)` returns `null` (the same result as for a missing key),
`has(k)` returns `false`, and `getOrSet(k, producer, t')` proceeds exactly
as on a miss — it runs the producer, caching its result on success and
failing with its error on failure. -/
theorem claim_C10_stored_null_indistinguishable (s : CacheState) (k : String)
    (ttl ttl' : Int) (now nf : Nat) (producer : Except String Value)
    (hunexp : 0 < ttl → nf ≤ now + ttl.toNat * 1000) :
    (mapLookup k (CacheService.set k Value.vnull ttl now s).cache).isSome = true ∧
    (CacheService.get k nf (CacheService.set k Value.vnull ttl now s)).1 = Value.vnull ∧
    (CacheService.has k nf (CacheService.set k Value.vnull ttl now s)).1 = false ∧
    CacheService.getOrSet k producer ttl' nf (CacheService.set k Value.vnull ttl now s) =
      (match producer with
        | Except.ok d =>
            (Except.ok d, CacheService.set k d ttl' nf
              (CacheService.get k nf (CacheService.set k Value.vnull ttl now s)).2)
        | Except.error e =>
            (Except.error e,
              (CacheService.get k nf (CacheService.set k Value.vnull ttl now s)).2)) := by
  have hlook : mapLookup k (CacheService.set k Value.vnull ttl now s).cache
      = some { data := Value.vnull, created := now, lastAccessed := now,
               expires := if ttl > 0 then some (now + ttl.toNat * 1000) else none } := by
    simp only [CacheService.set]
    exact mapLookup_mapSet_self _ _ _
  have hnexp : isExpired nf
      { data := Value.vnull, created := now, lastAccessed := now,
        expires := if ttl > 0 then some (now + ttl.toNat * 1000) else none } = false := by
    by_cases hpos : ttl > 0
    · have := hunexp hpos
      simp [isExpired, hpos, Nat.not_lt.mpr this]
    · simp [isExpired, hpos]
  have hget : (CacheService.get k nf (CacheService.set k Value.vnull ttl now s)).1
      = Value.vnull := by
    simp [CacheService.get, hlook, hnexp]
  refine ⟨by simp [hlook], hget, ?_, ?_⟩
  · simp [CacheService.has, hget]
  · cases producer with
    | ok d => simp [CacheService.getOrSet, hget]
    | error e => simp [CacheService.getOrSet, hget]

/-- Witness for C10: `set("k", null, 5)` then the three reads at time 3000. -/
theorem claim_C10_stored_null_indistinguishable_witness :
    ((0 : Int) < 5 → 3000 ≤ 0 + (5 : Int).toNat * 1000) ∧
    ((mapLookup "k" (CacheService.set "k" Value.vnull 5 0 (CacheService.make {})).cache).isSome
        = true ∧
      (CacheService.get "k" 3000 (CacheService.set "k" Value.vnull 5 0 (CacheService.make {}))).1
        = Value.vnull ∧
      (CacheService.has "k" 3000 (CacheService.set "k" Value.vnull 5 0 (CacheService.make {}))).1
        = false ∧
      CacheService.getOrSet "k" (Except.ok (Value.vnum 7)) 5 3000
          (CacheService.set "k" Value.vnull 5 0 (CacheService.make {})) =
        (Except.ok (Value.vnum 7), CacheService.set "k" (Value.vnum 7) 5 3000
          (CacheService.get "k" 3000
            (CacheService.set "k" Value.vnull 5 0 (CacheService.make {}))).2)) :=
  ⟨by decide,
    claim_C10_stored_null_indistinguishable (CacheService.make {}) "k" 5 5 0 3000
      (Except.ok (Value.vnum 7)) (by decide)⟩

theorem isSome_mapLookup_mapSet {k' k : String} {e : Entry} {l : List (String × Entry)}
    (h : (mapLookup k' l).isSome = true) : (mapLookup k' (mapSet k e l)).isSome = true := by
  by_cases hk : k' = k
  · subst hk
    simp [mapLookup_mapSet_self]
  · rw [mapLookup_mapSet_ne hk]
    exact h

theorem timerInv_expiryPass (now : Nat) (s : CacheState) (hinv : TimerInv s) :
    TimerInv (CacheService.expiryPass now s) := by
  intro tk htk
  simp only [CacheService.expiryPass, List.mem_filter] at htk
  rcases htk with ⟨htimer, hnc⟩
  rcases Option.isSome_iff_exists.mp (hinv tk htimer) with ⟨e, he⟩
  have hexp : isExpired now e = false := by
    by_contra hne
    have hexpd : isExpired now e = true := by
      cases h : isExpired now e
      · exact absurd h hne
      · rfl
    have hmem : (tk, e) ∈ s.cache.filter (fun p => isExpired now p.2) :=
      List.mem_filter.mpr ⟨mem_of_mapLookup he, hexpd⟩
    have : tk ∈ (s.cache.filter (fun p => isExpired now p.2)).map Prod.fst :=
      List.mem_map_of_mem Prod.fst hmem
    simp [List.elem_iff, this] at hnc
  have : mapLookup tk (CacheService.expiryPass now s).cache = some e := by
    simp only [CacheService.expiryPass]
    exact mapLookup_filter he (by simp [hexp])
  simp [this]

theorem timerInv_sizePass (s : CacheState) (hinv : TimerInv s) :
    TimerInv (CacheService.sizePass s) := by
  by_cases hgt : (s.cache.length : Int) > s.maxSize
  · intro tk htk
    simp only [CacheService.sizePass, hgt, if_true, List.mem_filter] at htk
    rcases htk with ⟨htimer, hnc⟩
    rcases Option.isSome_iff_exists.mp (hinv tk htimer) with ⟨e, he⟩
    have : mapLookup tk (CacheService.sizePass s).cache = some e := by
      simp only [CacheService.sizePass, hgt, if_true]
      exact mapLookup_filter he (by simpa using hnc)
    simp [this]
  · simp only [CacheService.sizePass, hgt, if_false]
    exact hinv

/-- **C9** (spec I1): every operation of the service — `set`, `get`, `del`,
`clear`, the sweep, and a per-key expiry timer firing — preserves the
invariant that every key holding a pending-expiry timer also has a live
entry in the store: handles are always removed together with their
entries. -/
theorem claim_C9_timer_invariant_preserved (op : Op) (s : CacheState)
    (hinv : TimerInv s) : TimerInv (applyOp op s) := by
  cases op with
  | opSet k v ttl now =>
    intro tk htk
    by_cases hpos : ttl > 0
    · simp only [applyOp, CacheService.set, hpos, if_true, List.mem_append,
        timersDelete, List.mem_filter, List.mem_singleton] at htk
      rcases htk with ⟨htimer, hne⟩ | rfl
      · have hne' : tk ≠ k := by simpa using hne
        simp only [applyOp, CacheService.set, hpos, if_true]
        rw [mapLookup_mapSet_ne hne']
        exact hinv tk htimer
      · simp only [applyOp, CacheService.set, hpos, if_true]
        simp [mapLookup_mapSet_self]
    · simp only [applyOp, CacheService.set, hpos, if_false,
        timersDelete, List.mem_filter] at htk
      rcases htk with ⟨htimer, hne⟩
      have hne' : tk ≠ k := by simpa using hne
      simp only [applyOp, CacheService.set, hpos, if_false]
      rw [mapLookup_mapSet_ne hne']
      exact hinv tk htimer
  | opGet k now =>
    intro tk htk
    simp only [applyOp, CacheService.get] at htk ⊢
    cases hl : mapLookup k s.cache with
    | none =>
      simp only [hl] at htk ⊢
      exact hinv tk htk
    | some entry =>
      by_cases hexp : isExpired now entry = true
      · simp only [hl, hexp, if_true, timersDelete, List.mem_filter] at htk ⊢
        rcases htk with ⟨htimer, hne⟩
        have hne' : tk ≠ k := by simpa using hne
        rw [mapLookup_mapDelete_ne hne']
        exact hinv tk htimer
      · simp only [hl, hexp, if_false] at htk ⊢
        exact isSome_mapLookup_mapSet (hinv tk htk)
  | opDel k =>
    intro tk htk
    simp only [applyOp, CacheService.del, timersDelete, List.mem_filter] at htk ⊢
    rcases htk with ⟨htimer, hne⟩
    have hne' : tk ≠ k := by simpa using hne
    rw [mapLookup_mapDelete_ne hne']
    exact hinv tk htimer
  | opClear =>
    intro tk htk
    simp [applyOp, CacheService.clear] at htk
  | opSweep now =>
    exact timerInv_sizePass _ (timerInv_expiryPass now s hinv)
  | opTimerFire k =>
    intro tk htk
    simp only [applyOp, CacheService.timerFire, timersDelete, List.mem_filter] at htk ⊢
    rcases htk with ⟨htimer, hne⟩
    have hne' : tk ≠ k := by simpa using hne
    rw [mapLookup_mapDelete_ne hne']
    exact hinv tk htimer

/-- Witness for C9: a `set` on a state already holding a timered key. -/
theorem claim_C9_timer_invariant_preserved_witness :
    TimerInv
      { cache := [("a", ⟨Value.vnum 1, 0, 0, some 1000⟩)], timers := ["a"],
        maxSize := 1000, defaultTTL := 300 } ∧
    TimerInv (applyOp (Op.opSet "b" (Value.vnum 2) 5 10)
      { cache := [("a", ⟨Value.vnum 1, 0, 0, some 1000⟩)], timers := ["a"],
        maxSize := 1000, defaultTTL := 300 }) :=
  ⟨by
    intro tk htk
    simp only [List.mem_singleton] at htk
    subst htk
    decide,
    claim_C9_timer_invariant_preserved (Op.opSet "b" (Value.vnum 2) 5 10)
      { cache := [("a", ⟨Value.vnum 1, 0, 0, some 1000⟩)], timers := ["a"],
        maxSize := 1000, defaultTTL := 300 }
      (by
        intro tk htk
        simp only [List.mem_singleton] at htk
        subst htk
        decide)⟩

theorem paramLe_trans (a b c : String × Value) (hab : CacheService.paramLe a b = true)
    (hbc : CacheService.paramLe b c = true) : CacheService.paramLe a c = true := by
  simp only [CacheService.paramLe, decide_eq_true_eq] at *
  exact le_trans hab hbc

theorem paramLe_total (a b : String × Value) :
    CacheService.paramLe a b = true ∨ CacheService.paramLe b a = true := by
  simp only [CacheService.paramLe, decide_eq_true_eq]
  exact le_total _ _

theorem sortStable_paramLe_eq_of_perm {p1 p2 : List (String × Value)}
    (hperm : p1.Perm p2) (hnd : (p1.map Prod.fst).Nodup) :
    sortStable CacheService.paramLe p1 = sortStable CacheService.paramLe p2 := by
  have hperm12 : (sortStable CacheService.paramLe p1).Perm (sortStable CacheService.paramLe p2) :=
    ((sortStable_perm CacheService.paramLe p1).trans hperm).trans (sortStable_perm CacheService.paramLe p2).symm
  have hnd2 : (p2.map Prod.fst).Nodup := (hperm.map Prod.fst).nodup hnd
  have hsorted : ∀ (p : List (String × Value)), (p.map Prod.fst).Nodup →
      List.Sorted (fun a b : String × Value => a.1.data < b.1.data) (sortStable CacheService.paramLe p) := by
    intro p hp
    have hle : (sortStable CacheService.paramLe p).Pairwise (fun a b => CacheService.paramLe a b = true) :=
      pairwise_sortStable paramLe_trans paramLe_total p
    have hndS : ((sortStable CacheService.paramLe p).map Prod.fst).Nodup :=
      ((sortStable_perm CacheService.paramLe p).map Prod.fst).symm.nodup hp
    have hne : (sortStable CacheService.paramLe p).Pairwise (fun a b => a.1 ≠ b.1) :=
      List.pairwise_map.mp hndS
    have := hle.and hne
    refine this.imp ?_
    intro a b hab
    rcases hab with ⟨h1, h2⟩
    simp only [CacheService.paramLe, decide_eq_true_eq] at h1
    exact lt_of_le_of_ne h1 (fun hd => h2 (String.ext hd))
  haveI : IsAntisymm (String × Value) (fun a b : String × Value => a.1.data < b.1.data) :=
    ⟨fun a b h1 h2 => absurd h2 (not_lt.mpr (le_of_lt h1))⟩
  exact List.eq_of_perm_of_sorted hperm12 (hsorted p1 hnd) (hsorted p2 hnd2)

/-- **C6** (spec P7): `generateKey` is deterministic and insensitive to
parameter insertion order — two parameter mappings with the same key/value
bindings (a permutation with no duplicate keys) produce the same key — and
empty params yield exactly `"api:" ++ endpoint` with no parameter suffix. -/
theorem claim_C6_generateKey_deterministic (e : String)
    (p1 p2 : List (String × Value)) (hperm : p1.Perm p2)
    (hnd : (p1.map Prod.fst).Nodup) :
    CacheService.generateKey e p1 = CacheService.generateKey e p2 ∧
    CacheService.generateKey e [] = "api:" ++ e := by
  constructor
  · simp only [CacheService.generateKey, sortStable_paramLe_eq_of_perm hperm hnd]
  · simp [CacheService.generateKey, sortStable]

/-- Witness for C6: `generateKey("e", {b:2,a:1}) = generateKey("e", {a:1,b:2})`. -/
theorem claim_C6_generateKey_deterministic_witness :
    ([("b", Value.vnum 2), ("a", Value.vnum 1)].Perm
        [("a", Value.vnum 1), ("b", Value.vnum 2)] ∧
      ([("b", Value.vnum 2), ("a", Value.vnum 1)].map Prod.fst).Nodup) ∧
    (CacheService.generateKey "e" [("b", Value.vnum 2), ("a", Value.vnum 1)]
        = CacheService.generateKey "e" [("a", Value.vnum 1), ("b", Value.vnum 2)] ∧
      CacheService.generateKey "e" [] = "api:" ++ "e") :=
  ⟨⟨List.Perm.swap ("a", Value.vnum 1) ("b", Value.vnum 2) [], by decide⟩,
    claim_C6_generateKey_deterministic "e"
      [("b", Value.vnum 2), ("a", Value.vnum 1)]
      [("a", Value.vnum 1), ("b", Value.vnum 2)]
      (List.Perm.swap ("a", Value.vnum 1) ("b", Value.vnum 2) []) (by decide)⟩

/-- **C3** (spec P4 and the size-based pass): on a cache whose entries are all
non-expired and whose `created` stamps are strictly increasing in store
order, a sweep with `maxSize = m < count` removes exactly the
`count − m` entries with the smallest `created` values — the store becomes
`drop (count − m)` of the old store; with `count = m + 1` that is exactly
the single oldest entry. -/
theorem claim_C3_oldest_first_eviction (s : CacheState) (now : Nat) (m : Nat)
    (hnd : (s.cache.map Prod.fst).Nodup)
    (hnoexp : ∀ p ∈ s.cache, isExpired now p.2 = false)
    (hinc : s.cache.Pairwise (fun p q => p.2.created < q.2.created))
    (hm : s.maxSize = (m : Int))
    (hlen : m < s.cache.length) :
    (CacheService.cleanup now s).cache = s.cache.drop (s.cache.length - m) := by
  have hexpc : (CacheService.expiryPass now s).cache = s.cache := by
    simp only [CacheService.expiryPass]
    exact List.filter_eq_self.mpr (fun p hp => by simp [hnoexp p hp])
  have hgt : ((CacheService.expiryPass now s).cache.length : Int)
      > (CacheService.expiryPass now s).maxSize := by
    rw [hexpc, expiryPass_maxSize, hm]
    exact_mod_cast hlen
  have hsorted : sortStable createdLe s.cache = s.cache :=
    sortStable_eq_self (hinc.imp (fun h => by
      simp only [createdLe, decide_eq_true_eq]
      exact le_of_lt h))
  rw [CacheService.cleanup]
  simp only [CacheService.sizePass, hgt, if_true]
  rw [hexpc]
  have hn : ((s.cache.length : Int) - (CacheService.expiryPass now s).maxSize).toNat
      = s.cache.length - m := by
    rw [expiryPass_maxSize, hm]
    omega
  rw [hn, hsorted]
  set n := s.cache.length - m with hdefn
  set toRemove := (s.cache.take n).map Prod.fst with hdefrm
  have hkeys : s.cache.map Prod.fst
      = (s.cache.take n).map Prod.fst ++ (s.cache.drop n).map Prod.fst := by
    rw [← List.map_append, List.take_append_drop]
  have hdisj : List.Disjoint ((s.cache.take n).map Prod.fst)
      ((s.cache.drop n).map Prod.fst) := by
    have hnd' := hnd
    rw [hkeys] at hnd'
    exact List.disjoint_of_nodup_append hnd'
  conv_lhs => rw [← List.take_append_drop n s.cache]
  rw [List.filter_append]
  have h1 : (s.cache.take n).filter (fun p => !(toRemove.contains p.1)) = [] := by
    refine List.filter_eq_nil_iff.mpr ?_
    intro p hp
    have hmem : p.1 ∈ toRemove := by
      rw [hdefrm]
      exact List.mem_map_of_mem Prod.fst hp
    simp [List.elem_iff, hmem]
  have h2 : (s.cache.drop n).filter (fun p => !(toRemove.contains p.1))
      = s.cache.drop n := by
    refine List.filter_eq_self.mpr ?_
    intro p hp
    have hpd : p.1 ∈ (s.cache.drop n).map Prod.fst := List.mem_map_of_mem Prod.fst hp
    have hnot : p.1 ∉ toRemove := by
      rw [hdefrm]
      exact fun hmem => hdisj hmem hpd
    simp [List.elem_iff, hnot]
  rw [h1, h2, List.nil_append]

/-- Witness for C3, spec E2E scenario A: `maxSize = 2`, three no-TTL entries
inserted in order; the sweep leaves exactly the two newest. -/
theorem claim_C3_oldest_first_eviction_witness :
    (((([("a", ⟨Value.vnum 1, 0, 0, none⟩), ("b", ⟨Value.vnum 2, 1, 1, none⟩),
        ("c", ⟨Value.vnum 3, 2, 2, none⟩)] : List (String × Entry)).map Prod.fst).Nodup) ∧
      (∀ p ∈ ([("a", ⟨Value.vnum 1, 0, 0, none⟩), ("b", ⟨Value.vnum 2, 1, 1, none⟩),
        ("c", ⟨Value.vnum 3, 2, 2, none⟩)] : List (String × Entry)),
          isExpired 5 p.2 = false) ∧
      (([("a", ⟨Value.vnum 1, 0, 0, none⟩), ("b", ⟨Value.vnum 2, 1, 1, none⟩),
        ("c", ⟨Value.vnum 3, 2, 2, none⟩)] : List (String × Entry)).Pairwise
          (fun p q => p.2.created < q.2.created))) ∧
    (CacheService.cleanup 5
        { cache := [("a", ⟨Value.vnum 1, 0, 0, none⟩), ("b", ⟨Value.vnum 2, 1, 1, none⟩),
            ("c", ⟨Value.vnum 3, 2, 2, none⟩)]
          timers := [], maxSize := 2, defaultTTL := 300 }).cache
      = ([("a", ⟨Value.vnum 1, 0, 0, none⟩), ("b", ⟨Value.vnum 2, 1, 1, none⟩),
          ("c", ⟨Value.vnum 3, 2, 2, none⟩)] : List (String × Entry)).drop (3 - 2) :=
  ⟨⟨by decide, by decide, by decide⟩,
    claim_C3_oldest_first_eviction
      { cache := [("a", ⟨Value.vnum 1, 0, 0, none⟩), ("b", ⟨Value.vnum 2, 1, 1, none⟩),
          ("c", ⟨Value.vnum 3, 2, 2, none⟩)]
        timers := [], maxSize := 2, defaultTTL := 300 } 5 2
      (by decide) (by decide) (by decide) (by decide) (by decide)⟩

/-- **C7**: the code evaluated at the failing input `maxSize = 0`.  The
constructor and `setMaxSize` are total functions that accept any value
without validation — `make { maxSize := 0 }` simply stores `0` (and
`setMaxSize (-5)` stores `-5`) with no error — and one sweep of the
resulting degenerate cache evicts every entry, the precise outcome the spec
requires eager rejection to prevent.  The claim (eager validation with a
descriptive error) is what the spec mandates; the code does not implement
it. -/
theorem claim_C7_no_validation_failing_input :
    (CacheService.make { maxSize := some 0 }).maxSize = 0 ∧
    (CacheService.setMaxSize (-5) 1 (CacheService.make {})).maxSize = -5 ∧
    (CacheService.cleanup 1
        (CacheService.set "k" (Value.vnum 1) 0 0
          (CacheService.make { maxSize := some 0 }))).cache = [] := by
  decide

/-! ### Lemmas for the expiry claim C1 -/

theorem expiryPass_cache (now : Nat) (s : CacheState) :
    (CacheService.expiryPass now s).cache
      = s.cache.filter (fun p => !isExpired now p.2) := rfl

theorem mapLookup_eq_none_iff {k : String} {l : List (String × Entry)} :
    mapLookup k l = none ↔ k ∉ l.map Prod.fst := by
  induction l with
  | nil => simp [mapLookup]
  | cons p rest ih =>
    rcases p with ⟨k0, e0⟩
    by_cases h : k0 = k
    · subst h
      simp [mapLookup]
    · simp [mapLookup, h, ih, Ne.symm h]

theorem mapLookup_filter_none {k : String} {P : String × Entry → Bool}
    {l : List (String × Entry)} (h : mapLookup k l = none) :
    mapLookup k (l.filter P) = none := by
  rw [mapLookup_eq_none_iff] at h ⊢
  intro hmem
  exact h (((List.filter_sublist l).map Prod.fst).subset hmem)

theorem lookup_filter_or {k : String} {eK : Entry} (P : String × Entry → Bool)
    {l : List (String × Entry)} (hnd : (l.map Prod.fst).Nodup)
    (h : mapLookup k l = some eK ∨ mapLookup k l = none) :
    mapLookup k (l.filter P) = some eK ∨ mapLookup k (l.filter P) = none := by
  rcases h with h | h
  · by_cases hP : P (k, eK) = true
    · exact Or.inl (mapLookup_filter h hP)
    · right
      cases hf : mapLookup k (l.filter P) with
      | none => rfl
      | some e2 =>
        exfalso
        have h1 : mapLookup k l = some e2 := mapLookup_of_mapLookup_filter hnd hf
        rw [h] at h1
        injection h1 with h1
        subst h1
        have hmem : (k, eK) ∈ l.filter P := mem_of_mapLookup hf
        exact hP (List.mem_filter.mp hmem).2
  · exact Or.inr (mapLookup_filter_none h)

theorem sizePass_cache_cases (s : CacheState) :
    (CacheService.sizePass s).cache = s.cache ∨
    ∃ P : String × Entry → Bool, (CacheService.sizePass s).cache = s.cache.filter P := by
  by_cases hgt : (s.cache.length : Int) > s.maxSize
  · right
    refine ⟨fun p => !((((sortStable createdLe s.cache).take
        ((s.cache.length : Int) - s.maxSize).toNat).map Prod.fst).contains p.1), ?_⟩
    simp [CacheService.sizePass, hgt]
  · left
    simp [CacheService.sizePass, hgt]

theorem step_preserves_lookup_cases (k : String) (eK : Entry) (st : Step)
    (s' : CacheState) (hnd : (s'.cache.map Prod.fst).Nodup)
    (h : mapLookup k s'.cache = some eK ∨ mapLookup k s'.cache = none) :
    ((runStep st s').cache.map Prod.fst).Nodup ∧
    (mapLookup k (runStep st s').cache = some eK ∨
      mapLookup k (runStep st s').cache = none) := by
  cases st with
  | sweep n =>
    have hrw : (runStep (Step.sweep n) s').cache
        = (CacheService.sizePass (CacheService.expiryPass n s')).cache := rfl
    have hnd1 : ((CacheService.expiryPass n s').cache.map Prod.fst).Nodup := by
      rw [expiryPass_cache]
      exact nodup_keys_filter hnd
    have hlk1 : mapLookup k (CacheService.expiryPass n s').cache = some eK ∨
        mapLookup k (CacheService.expiryPass n s').cache = none := by
      rw [expiryPass_cache]
      exact lookup_filter_or _ hnd h
    rcases sizePass_cache_cases (CacheService.expiryPass n s') with hc | ⟨P, hc⟩
    · rw [hrw, hc]
      exact ⟨hnd1, hlk1⟩
    · rw [hrw, hc]
      exact ⟨nodup_keys_filter hnd1, lookup_filter_or P hnd1 hlk1⟩
  | fire k2 =>
    have hrw : (runStep (Step.fire k2) s').cache = mapDelete k2 s'.cache := rfl
    rw [hrw]
    refine ⟨nodup_keys_filter hnd, ?_⟩
    by_cases hk : k2 = k
    · subst hk
      exact Or.inr (mapLookup_mapDelete_self k2 s'.cache)
    · rw [mapLookup_mapDelete_ne (fun hh => hk hh.symm)]
      exact h

theorem runSteps_preserves_lookup_cases (k : String) (eK : Entry)
    (steps : List Step) :
    ∀ s' : CacheState, (s'.cache.map Prod.fst).Nodup →
      (mapLookup k s'.cache = some eK ∨ mapLookup k s'.cache = none) →
      ((runSteps steps s').cache.map Prod.fst).Nodup ∧
      (mapLookup k (runSteps steps s').cache = some eK ∨
        mapLookup k (runSteps steps s').cache = none) := by
  induction steps with
  | nil => intro s' hnd h; exact ⟨hnd, h⟩
  | cons st rest ih =>
    intro s' hnd h
    have hrw : runSteps (st :: rest) s' = runSteps rest (runStep st s') := rfl
    rw [hrw]
    rcases step_preserves_lookup_cases k eK st s' hnd h with ⟨hnd1, h1⟩
    exact ih (runStep st s') hnd1 h1

theorem step_preserves_live_entry (k : String) (eK : Entry) (nf : Nat) (st : Step)
    (s' : CacheState) (hok : stepOk k nf st = true)
    (hnexp : ∀ n ≤ nf, isExpired n eK = false)
    (hlk : mapLookup k s'.cache = some eK)
    (hsz : (s'.cache.length : Int) ≤ s'.maxSize) :
    mapLookup k (runStep st s').cache = some eK ∧
    ((runStep st s').cache.length : Int) ≤ (runStep st s').maxSize ∧
    (runStep st s').maxSize = s'.maxSize := by
  cases st with
  | sweep n =>
    have hn : n ≤ nf := by simpa [stepOk] using hok
    have hlk1 : mapLookup k (CacheService.expiryPass n s').cache = some eK := by
      rw [expiryPass_cache]
      exact mapLookup_filter hlk (by simp [hnexp n hn])
    have hsz1 : ((CacheService.expiryPass n s').cache.length : Int)
        ≤ (CacheService.expiryPass n s').maxSize := by
      rw [expiryPass_cache, expiryPass_maxSize]
      calc ((s'.cache.filter (fun p => !isExpired n p.2)).length : Int)
          ≤ (s'.cache.length : Int) := by exact_mod_cast List.length_filter_le _ _
        _ ≤ s'.maxSize := hsz
    have hrw : runStep (Step.sweep n) s'
        = CacheService.sizePass (CacheService.expiryPass n s') := rfl
    rw [hrw, sizePass_eq_of_le _ hsz1]
    exact ⟨hlk1, hsz1, rfl⟩
  | fire k2 =>
    have hk : k2 ≠ k := by simpa [stepOk] using hok
    have hrw : runStep (Step.fire k2) s' = CacheService.timerFire k2 s' := rfl
    rw [hrw]
    refine ⟨?_, ?_, rfl⟩
    · have : (CacheService.timerFire k2 s').cache = mapDelete k2 s'.cache := rfl
      rw [this, mapLookup_mapDelete_ne (fun hh => hk hh.symm)]
      exact hlk
    · have : (CacheService.timerFire k2 s').cache = mapDelete k2 s'.cache := rfl
      rw [this]
      calc ((mapDelete k2 s'.cache).length : Int) ≤ (s'.cache.length : Int) := by
            exact_mod_cast List.length_filter_le _ _
        _ ≤ s'.maxSize := hsz

theorem runSteps_preserves_live_entry (k : String) (eK : Entry) (nf : Nat)
    (steps : List Step) :
    ∀ s' : CacheState, (∀ st ∈ steps, stepOk k nf st = true) →
      (∀ n ≤ nf, isExpired n eK = false) →
      mapLookup k s'.cache = some eK →
      (s'.cache.length : Int) ≤ s'.maxSize →
      mapLookup k (runSteps steps s').cache = some eK := by
  induction steps with
  | nil => intro s' _ _ hlk _; exact hlk
  | cons st rest ih =>
    intro s' hoks hnexp hlk hsz
    have hrw : runSteps (st :: rest) s' = runSteps rest (runStep st s') := rfl
    rw [hrw]
    rcases step_preserves_live_entry k eK nf st s'
        (hoks st (List.mem_cons_self st rest)) hnexp hlk hsz with ⟨h1, h2, _⟩
    exact ih (runStep st s') (fun st' hst' => hoks st' (List.mem_cons_of_mem st hst'))
      hnexp h1 h2

/-- Counterexample to C1 as stated: `set("k", "v", 1)` at time 0, nothing runs
in between, and the read occurs exactly at `0 + 1*1000 = 1000`, the expiry
instant.  The claim requires absent (`null`) for a read at that instant, but
the code's strict test (`now > expires`) returns the stored value. -/
theorem claim_C1_expiry_counterexample :
    (CacheService.get "k" 1000
        (CacheService.set "k" (Value.vstr "v") 1 0 (CacheService.make {}))).1
      = Value.vstr "v" ∧ Value.vstr "v" ≠ Value.vnull := by
  decide

/-- **C1** amended (expiry correctness as the code implements it): after
`set(k, v, t)` with `t > 0` at time `t0` on a duplicate-free cache strictly
below capacity, with arbitrary background steps between the `set` and the
read, a read strictly after `t0 + t*1000` returns absent regardless of
whether any sweep or timer has run; a read at or before that instant — the
instant itself included, where the original claim said absent — returns `v`
provided the sweeps ran no later than the read and `k`'s own expiry timer
has not fired. -/
theorem claim_C1_expiry_amended (s : CacheState) (k : String) (v : Value) (t : Int)
    (t0 nf : Nat) (steps : List Step) (ht : 0 < t)
    (hnd : (s.cache.map Prod.fst).Nodup)
    (hsz : (s.cache.length : Int) < s.maxSize) :
    (t0 + t.toNat * 1000 < nf →
      (CacheService.get k nf (runSteps steps (CacheService.set k v t t0 s))).1
        = Value.vnull) ∧
    (nf ≤ t0 + t.toNat * 1000 → (∀ st ∈ steps, stepOk k nf st = true) →
      (CacheService.get k nf (runSteps steps (CacheService.set k v t t0 s))).1 = v) := by
  set eK : Entry :=
    { data := v, created := t0, lastAccessed := t0,
      expires := some (t0 + t.toNat * 1000) } with heK
  have hset : (CacheService.set k v t t0 s).cache = mapSet k eK s.cache := by
    simp [CacheService.set, ht, heK]
  have h0 : mapLookup k (CacheService.set k v t t0 s).cache = some eK := by
    rw [hset]
    exact mapLookup_mapSet_self _ _ _
  have hnd0 : ((CacheService.set k v t t0 s).cache.map Prod.fst).Nodup := by
    rw [hset]
    exact nodup_keys_mapSet hnd
  constructor
  · intro hgt
    rcases runSteps_preserves_lookup_cases k eK steps _ hnd0 (Or.inl h0) with ⟨_, hf⟩
    rcases hf with hf | hf
    · have hexp : isExpired nf eK = true := by
        simp only [heK, isExpired, decide_eq_true_eq]
        exact hgt
      simp [CacheService.get, hf, hexp]
    · simp [CacheService.get, hf]
  · intro hle hoks
    have hnexp : ∀ n ≤ nf, isExpired n eK = false := by
      intro n hn
      simp only [heK, isExpired, decide_eq_false_iff_not]
      omega
    have hsz0 : ((CacheService.set k v t t0 s).cache.length : Int)
        ≤ (CacheService.set k v t t0 s).maxSize := by
      rw [hset]
      have hmx : (CacheService.set k v t t0 s).maxSize = s.maxSize := rfl
      rw [hmx]
      have hlen : ((mapSet k eK s.cache).length : Int) ≤ (s.cache.length : Int) + 1 := by
        exact_mod_cast length_mapSet_le k eK s.cache
      omega
    have hfin := runSteps_preserves_live_entry k eK nf steps _ hoks hnexp h0 hsz0
    have hexp : isExpired nf eK = false := hnexp nf le_rfl
    simp [CacheService.get, hfin, hexp, heK]

/-- Witness for the amended C1: one sweep at time 100 between a 1-second `set`
at time 0 and a read at time 500; the read returns the value. -/
theorem claim_C1_expiry_amended_witness :
    ((0 : Int) < 1 ∧ ((CacheService.make {}).cache.map Prod.fst).Nodup ∧
      ((CacheService.make {}).cache.length : Int) < (CacheService.make {}).maxSize) ∧
    ((0 + (1 : Int).toNat * 1000 < 500 →
        (CacheService.get "k" 500 (runSteps [Step.sweep 100]
          (CacheService.set "k" (Value.vstr "v") 1 0 (CacheService.make {})))).1
          = Value.vnull) ∧
      (500 ≤ 0 + (1 : Int).toNat * 1000 →
        (∀ st ∈ [Step.sweep 100], stepOk "k" 500 st = true) →
        (CacheService.get "k" 500 (runSteps [Step.sweep 100]
          (CacheService.set "k" (Value.vstr "v") 1 0 (CacheService.make {})))).1
          = Value.vstr "v")) :=
  ⟨⟨by decide, by decide, by decide⟩,
    claim_C1_expiry_amended (CacheService.make {}) "k" (Value.vstr "v") 1 0 500
      [Step.sweep 100] (by decide) (by decide) (by decide)⟩
